import Mathlib

/-!
Verification development for the OnlineArticleRecommendation engine
(`Core/news_learner.py`).  The Python code is shallowly embedded: floats
become rationals, mutable lists become explicit list-passing, numpy random
draws become choice oracles constrained to return indices the sampler could
actually produce (an index whose probability mass is positive), and raised
exceptions become `Except.error` values.  Each embedded definition mirrors
one region of `NewsLearner`; the theorems at the bottom settle the frozen
claims about that code.
-/

/-! ## Generic list helpers

The Python code uses `list.index`, `np.argmax` and first-positive scans.
These small recursive functions model them; `firstIdxOf` is Python
`list.index` (first occurrence), `listArgmax` is `np.argmax` (first index
of the maximum), `firstPosIdx` is the index of the first strictly positive
entry. -/

def firstIdxOf {α : Type} [DecidableEq α] (v : α) : List α → ℕ
  | [] => 0
  | x :: rest => if x = v then 0 else firstIdxOf v rest + 1

def listArgmax : List ℚ → ℕ
  | [] => 0
  | [_] => 0
  | v :: w :: rest =>
    if v < (w :: rest).getD (listArgmax (w :: rest)) 0 then listArgmax (w :: rest) + 1
    else 0

def firstPosIdx : List ℚ → ℕ
  | [] => 0
  | x :: rest => if 0 < x then 0 else firstPosIdx rest + 1

/-! ## Content items

The `News` and `Ad` classes live in `ads_news.py`; as data carriers they
hold an identifier, a category (here the index of the category string in
the learner's `categories` list, which is how the learner itself addresses
categories), the per-round `sampled_quality` scratch field and, for ads,
the `exclude_competitors` flag. -/

structure NewsIt where
  nid : ℕ
  cat : ℕ
  quality : ℚ
deriving DecidableEq, Repr

structure AdIt where
  aid : ℕ
  cat : ℕ
  exclude : Bool
deriving DecidableEq, Repr, Inhabited

/-- Argument of `fill_news_pool`: Python checks `isinstance(news, News)`, so
an element of the supplied list is either a `News` object or something else
(modelled by an `Ad`, the other content kind of the repository). -/
inductive Content where
  | news (n : NewsIt) : Content
  | ad (a : AdIt) : Content
deriving DecidableEq, Repr

/-! ## Constructor validation of the diversity bounds and slot prominences

Embedding of `NewsLearner.__init__` lines 85-106.  The Python code first
walks `allocation_diversity_bounds`, raising on a negative bound and
accumulating the total, then compares the total with
`sum(real_slot_promenances)`, then (only warning) truncates or extends the
bound list to the category count - extension reads `bounds[-1]`, an
`IndexError` on an empty list - and finally checks every news and ads slot
prominence against [0, 1].  The returned Bool records whether the
length-mismatch warning was emitted (`warnings.warn`, non-fatal). -/

def sumBoundsChecked : List ℚ → Except String ℚ
  | [] => .ok 0
  | b :: rest =>
    if b < 0 then .error "RuntimeError: allocation diversity bounds cannot be negative"
    else (sumBoundsChecked rest).map (fun s => b + s)

def adjustBounds (numCategories : ℕ) (bounds : List ℚ) : Except String (List ℚ) :=
  if bounds.length < numCategories then
    match bounds.getLast? with
    | none => .error "IndexError: list index out of range"
    | some lastBound =>
      .ok (bounds ++ List.replicate (numCategories - bounds.length) lastBound)
  else .ok (bounds.take numCategories)

def initDiversityChecks (numCategories : ℕ) (bounds : List ℚ)
    (newsProms adsProms : List ℚ) : Except String (List ℚ × Bool) :=
  match sumBoundsChecked bounds with
  | .error e => .error e
  | .ok total =>
    if total > newsProms.sum then
      .error "RuntimeError: total sum of the allocation diversity bounds exceeds the prominences"
    else
      let adjusted : Except String (List ℚ × Bool) :=
        if bounds.length ≠ numCategories then
          (adjustBounds numCategories bounds).map (fun bs => (bs, true))
        else .ok (bounds, false)
      match adjusted with
      | .error e => .error e
      | .ok (bs, warned) =>
        if (newsProms ++ adsProms).any (fun p => 1 < p || p < 0) then
          .error "RuntimeError: slot prominence outside zero-one"
        else .ok (bs, warned)

/-! ## Position in the learning matrix

Embedding of `NewsLearner.__compute_position_in_learning_matrix`
(lines 379-406).  For each axis the Python code runs
`while value >= pivots[k]: k += 1` when `value < pivots[-1]`, and returns
`len(pivots)` otherwise; `matrixCoord` renders the while loop as the length
of the longest prefix of pivots not exceeding the value. -/

def matrixCoord (pivots : List ℚ) (v : ℚ) : ℕ :=
  if v < pivots.getLastD 0 then (pivots.takeWhile (fun p => p ≤ v)).length
  else pivots.length

def computePositionInLearningMatrix (rowPivots colPivots : List ℚ)
    (clicks cumsum : ℚ) : ℕ × ℕ :=
  (matrixCoord rowPivots clicks, matrixCoord colPivots cumsum)

/-- Modelled from the spec sentence of claim C5, for comparison with the
code: the coordinate is the number of pivot thresholds STRICTLY exceeded
by the value. -/
def specPositionInLearningMatrix (rowPivots colPivots : List ℚ)
    (clicks cumsum : ℚ) : ℕ × ℕ :=
  (rowPivots.countP (fun p => p < clicks), colPivots.countP (fun p => p < cumsum))

/-! ## Standard (greedy) news allocation

Embedding of `NewsLearner.find_best_allocation` (lines 449-498), standard
approach.  The method first raises when the news pool holds fewer items
than the page has slots; otherwise it writes a fresh `sampled_quality`
into every pooled news (the Beta draw is abstracted by the `sample`
oracle), sorts the pool by sampled quality in descending order
(`list.sort` is stable), and repeatedly pops the best remaining news into
the highest-prominence unfilled slot, marking a used slot by overwriting
its prominence with -1.  The function returns the allocation outcome
together with the news pool as it is left by the call (sampled and sorted
in place; untouched in the error case). -/

def sortByQualityDesc (l : List NewsIt) : List NewsIt :=
  l.insertionSort (fun a b => b.quality ≤ a.quality)

def allocStandardLoop : ℕ → List ℚ → List NewsIt → List (Option NewsIt) → List (Option NewsIt)
  | 0, _, _, result => result
  | fuel + 1, proms, pool, result =>
    match pool with
    | [] => result
    | h :: t =>
      let target := listArgmax proms
      allocStandardLoop fuel (proms.set target (-1)) t (result.set target (some h))

def find_best_allocation_standard (sample : NewsIt → ℚ) (proms : List ℚ)
    (pool : List NewsIt) : Except String (List (Option NewsIt)) × List NewsIt :=
  if pool.length < proms.length then
    (.error "RuntimeError: the news pool is empty or too few articles are present", pool)
  else
    let sorted := sortByQualityDesc (pool.map (fun n => { n with quality := sample n }))
    (.ok (allocStandardLoop proms.length proms sorted (List.replicate proms.length none)),
     sorted)

/-! ## Candidate-subset selection of the LP strategy

Embedding of the subset-building phase of
`NewsLearner.__solve_linear_problem` (lines 950-977).  The pool is sorted
by (category, sampled quality) in descending order; the loop then walks it
keeping at most `layout_slots` news per category, and on each category
change executes `raise RuntimeWarning(...)` - an exception, not a
`warnings.warn` call - whenever the category just finished contributed
fewer than `layout_slots` news.  The random padding of the subset up to
`len(categories) * layout_slots` only runs after this loop. -/

def sortByCatQualityDesc (l : List NewsIt) : List NewsIt :=
  l.insertionSort (fun a b => b.cat < a.cat ∨ (b.cat = a.cat ∧ b.quality ≤ a.quality))

def buildLPSelectGo (layoutSlots : ℕ) :
    List NewsIt → ℕ → ℕ → Bool → List NewsIt → Except String (List NewsIt)
  | [], _, _, _, acc => .ok acc
  | n :: rest, prevCat, count, doneFlag, acc =>
    if n.cat ≠ prevCat ∧ count < layoutSlots then
      .error "RuntimeWarning: not enough news per category found"
    else
      let count0 := if n.cat ≠ prevCat then 0 else count
      let done0 := if n.cat ≠ prevCat then false else doneFlag
      let acc1 := if done0 then acc else acc ++ [n]
      let count1 := if done0 then count0 else count0 + 1
      let done1 := if count1 = layoutSlots then true else done0
      buildLPSelectGo layoutSlots rest n.cat count1 done1 acc1

def buildLPSelect (layoutSlots : ℕ) (pool : List NewsIt) : Except String (List NewsIt) :=
  match sortByCatQualityDesc pool with
  | [] => .ok []
  | first :: rest => buildLPSelectGo layoutSlots (first :: rest) first.cat 0 false []

/-! ## Filling the news pool

Embedding of `NewsLearner.fill_news_pool` (lines 545-608).  A first loop
validates every supplied element (`isinstance(news, News)`, then
membership of its category in the agent categories) before anything is
inserted, so a raise leaves the pool untouched; then the list is appended
to or replaces the pool, and - only under the "full" allocation
approach - the pool is additionally sorted by category in ascending
order. -/

def validateNewsList (cats : List ℕ) : List Content → Except String Unit
  | [] => .ok ()
  | .news n :: rest =>
    if n.cat ∈ cats then validateNewsList cats rest
    else .error "RuntimeError: category not handled by the Agent"
  | .ad _ :: _ => .error "RuntimeError: only News objects can be stored"

def newsOf (items : List Content) : List NewsIt :=
  items.filterMap (fun c => match c with | .news n => some n | .ad _ => none)

def fill_news_pool (cats : List ℕ) (approach : String) (pool : List NewsIt)
    (items : List Content) (append : Bool) : Except String Unit × List NewsIt :=
  match validateNewsList cats items with
  | .error e => (.error e, pool)
  | .ok _ =>
    let p := if append then pool ++ newsOf items else newsOf items
    (.ok (), if approach = "full" then p.insertionSort (fun a b => a.cat ≤ b.cat) else p)

/-! ## Removing ads from the pool

Embedding of `NewsLearner.remove_ad_from_pool` (lines 882-899) and of the
technique dispatch of `find_ads_best_allocation` (lines 655-660).  The
Python loop scans the pool through the negative indices -len..-1, deleting
the element under the cursor when it belongs to `ads_list`; deletions at
or left of the cursor do not shift the negative index of the elements
still to be visited, so the loop visits every original element once and
drops exactly those in `ads_list` (`scanRemoveAds`).  The per-category
buffers `ads_per_category` are then purged only when
`ads_allocation_technique == "resLP"` - while the dispatch in
`find_ads_best_allocation` only accepts "LP" and "res_LP". -/

def scanRemoveAds (adsList : List AdIt) : List AdIt → List AdIt
  | [] => []
  | x :: rest =>
    if x ∈ adsList then scanRemoveAds adsList rest else x :: scanRemoveAds adsList rest

def purgeAdsBuffers (buffers : List (List (List AdIt))) (adsList : List AdIt) :
    List (List (List AdIt)) :=
  adsList.foldl (fun bufs ad =>
    let exIdx := if ad.exclude then 1 else 0
    bufs.set ad.cat
      ((bufs.getD ad.cat []).set exIdx (((bufs.getD ad.cat []).getD exIdx []).erase ad)))
    buffers

def remove_ad_from_pool (tech : String) (adsPool : List AdIt)
    (buffers : List (List (List AdIt))) (adsList : List AdIt) :
    List AdIt × List (List (List AdIt)) :=
  (scanRemoveAds adsList adsPool,
   if tech = "resLP" then purgeAdsBuffers buffers adsList else buffers)

def adsTechniqueAccepted (tech : String) : Bool :=
  tech == "LP" || tech == "res_LP"

/-! ## Derandomization of a fractional LP solution

Embedding of `NewsLearner.__de_randomize_LP` (lines 1423-1471).  The state
carries the page being built (`result`, one optional candidate index per
slot), the working copy `tmp` of the slot prominences (a processed slot is
overwritten with 0), the list `feas` of still-assignable candidate indices,
the per-slot weight vectors `probs`, and - for rand_3 - the list of already
processed slots.  The two numpy draws are abstracted by a choice oracle:
`pickSlot` models `np.random.choice(tmp_slot_promenances, p=...)` (it
returns the index of the drawn value; the subsequent `.index` lookup of the
drawn value is kept explicit via `firstIdxOf`), and `pickNews` models
`np.random.choice(feasible_news, p=...)` followed by
`feasible_news.index(...)` (it returns the position of the drawn candidate
inside `feas`, which holds pairwise-distinct indices).

The candidate draw has an error path the step must keep: lines 1458-1461
normalize the target slot's remaining weight vector (dampened first for
rand_3, columns of already chosen candidates removed) by dividing by its
sum; when that sum is zero the division yields NaN and `np.random.choice`
raises ValueError, aborting the derandomization.  For the nonnegative
weight vectors the LP pipeline supplies (absolute values, line 995), the
draw succeeds exactly when the sum is nonzero, which is how the step tests
it.  The slot-order normalization of rand_2 (line 1444) divides by
`sum(tmp_slot_promenances)`; under strictly positive prominences every
still-unprocessed slot keeps its positive entry while iterations remain,
so that division never degenerates and needs no error path. -/

inductive LpRandTech where
  | rand_1 : LpRandTech
  | rand_2 : LpRandTech
  | rand_3 : LpRandTech
deriving DecidableEq, Repr

structure DROracle where
  pickSlot : ℕ → List ℚ → ℕ
  pickNews : ℕ → List ℚ → List ℕ → ℕ

structure DRState where
  result : List (Option ℕ)
  tmp : List ℚ
  feas : List ℕ
  probs : List (List ℚ)
  allocated : List ℕ
  step : ℕ

def deRandTarget (tech : LpRandTech) (orc : DROracle) (step : ℕ) (tmp : List ℚ) : ℕ :=
  match tech with
  | .rand_2 => firstIdxOf (tmp.getD (orc.pickSlot step tmp) 0) tmp
  | _ => listArgmax tmp

def dampProbs (probs : List (List ℚ)) (allocated : List ℕ) (target : ℕ)
    (tp : List ℚ) : List ℚ :=
  (List.range probs.length).foldl
    (fun acc p =>
      if p ∉ allocated ∧ p ≠ target then
        acc.zipWith (fun a b => a * (1 - b)) (probs.getD p [])
      else acc)
    tp

def deRandStep (tech : LpRandTech) (orc : DROracle) (st : DRState) :
    Except String DRState :=
  let target := deRandTarget tech orc st.step st.tmp
  let tp0 := st.probs.getD target []
  let tp := match tech with
    | .rand_3 => dampProbs st.probs st.allocated target tp0
    | _ => tp0
  let allocated1 := match tech with
    | .rand_3 => st.allocated ++ [target]
    | _ => st.allocated
  if tp.sum = 0 then .error "ValueError: probabilities contain NaN"
  else
    let chosen := st.feas.getD (orc.pickNews st.step tp st.feas) 0
    let delIdx := firstIdxOf chosen st.feas
    .ok { result := st.result.set target (some chosen)
          tmp := st.tmp.set target 0
          feas := st.feas.eraseIdx delIdx
          probs := st.probs.map (fun row => row.eraseIdx delIdx)
          allocated := allocated1
          step := st.step + 1 }

def deRandLoop (tech : LpRandTech) (orc : DROracle) : ℕ → DRState → Except String DRState
  | 0, st => .ok st
  | fuel + 1, st =>
    match deRandStep tech orc st with
    | .error e => .error e
    | .ok st2 => deRandLoop tech orc fuel st2

def de_randomize_LP (tech : LpRandTech) (orc : DROracle) (proms : List ℚ)
    (numCandidates : ℕ) (probs : List (List ℚ)) : Except String (List (Option ℕ)) :=
  (deRandLoop tech orc proms.length
    { result := List.replicate proms.length none
      tmp := proms
      feas := List.range numCandidates
      probs := probs
      allocated := []
      step := 0 }).map (fun st => st.result)

/-- Concrete oracle used to instantiate the derandomization theorem: the
slot draw takes the first slot of positive remaining prominence, the news
draw takes the first still-feasible candidate.  Both are choices the numpy
samplers make with positive probability. -/
def greedyDROracle : DROracle where
  pickSlot := fun _ tmp => firstPosIdx tmp
  pickNews := fun _ _ _ => 0

/-! ## Ads allocation: competitor-exclusion constraints and extraction

Embedding of the pieces of `NewsLearner` that decide which ads reach the
final ad layout.  For the full ILP ("LP" technique): the competitor rows
of `ads_A` built in `__init__` lines 244-254 (coefficient `M = 1000` on the
block of candidate j of category c, coefficient 1 on the rest of the
category block), their right-hand sides set in
`__solve_ads_integer_linear_problem` line 1238
(`M * (2 - exclude_competitors)` for the candidate at position c*S+j of the
sorted candidate pool; rows whose position reaches past the end of the pool
keep the 0 the constructor wrote into `ads_B` at line 212, which happens
exactly when some category is under-stocked, since the subset builder of
lines 1209-1225 compacts without padding), and the slot-by-slot extraction
of lines 1285-1294,
which takes for each slot the first variable with a positive value and
KEEPS THE PREVIOUS `var_name` when the slot has no positive variable.
Variables are indexed (category, candidate, slot), slot fastest, exactly
the creation order of the `LpVariable` names (pulp returns variables sorted
by name, which coincides with creation order for single-digit indices as in
every configuration considered here).  The final cross-learner step of
lines 1296-1302 only rewrites the `sampled_quality` of the returned ads
and never changes which ads appear, so it is omitted here. -/

/-- Two competing advertisers of the same category, both carrying the
`exclude_competitors` flag, used by the claim C7 counterexample. -/
def adExA : AdIt := { aid := 10, cat := 0, exclude := true }

/-- Acceptance test of `fill_news_pool` on a single supplied element: it
must be a News object whose category the agent handles. -/
def contentAccepted (cats : List ℕ) : Content → Bool
  | .news n => decide (n.cat ∈ cats)
  | .ad _ => false

/-! ## Helper lemmas about the generic list operations -/

theorem getD_mem {α : Type} (l : List α) (n : ℕ) (d : α) (h : n < l.length) :
    l.getD n d ∈ l := by
  rw [List.getD_eq_getElem l d h]
  exact List.getElem_mem h

theorem getD_set_self {α : Type} (l : List α) (i : ℕ) (v d : α) (h : i < l.length) :
    (l.set i v).getD i d = v := by
  rw [List.getD_eq_getElem _ d (by simpa using h)]
  simp [List.getElem_set, h]

theorem getD_set_ne {α : Type} (l : List α) (i j : ℕ) (v d : α) (h : i ≠ j) :
    (l.set i v).getD j d = l.getD j d := by
  simp [List.getD, List.getElem?_set_ne h]

theorem firstIdxOf_lt_length {α : Type} [DecidableEq α] {v : α} :
    ∀ {l : List α}, v ∈ l → firstIdxOf v l < l.length
  | x :: rest, h => by
    by_cases hx : x = v
    · simp [firstIdxOf, hx]
    · have hv : v ∈ rest := by
        rcases List.mem_cons.mp h with h1 | h1
        · exact absurd h1.symm hx
        · exact h1
      simpa [firstIdxOf, hx] using Nat.succ_lt_succ (firstIdxOf_lt_length hv)

theorem getD_firstIdxOf {α : Type} [DecidableEq α] {v : α} (d : α) :
    ∀ {l : List α}, v ∈ l → l.getD (firstIdxOf v l) d = v
  | x :: rest, h => by
    by_cases hx : x = v
    · simp [firstIdxOf, hx]
    · have hv : v ∈ rest := by
        rcases List.mem_cons.mp h with h1 | h1
        · exact absurd h1.symm hx
        · exact h1
      simpa [firstIdxOf, hx] using getD_firstIdxOf d hv

theorem eraseIdx_firstIdxOf {α : Type} [DecidableEq α] :
    ∀ (l : List α) (v : α), l.eraseIdx (firstIdxOf v l) = l.erase v
  | [], v => by simp [firstIdxOf]
  | x :: rest, v => by
    by_cases hx : x = v
    · simp [firstIdxOf, hx, List.erase_cons]
    · have : (x == v) = false := by simpa using hx
      simp [firstIdxOf, hx, List.erase_cons, this, eraseIdx_firstIdxOf rest v]

theorem listArgmax_lt : ∀ {l : List ℚ}, l ≠ [] → listArgmax l < l.length
  | [_], _ => by simp [listArgmax]
  | v :: w :: rest, _ => by
    have ih := listArgmax_lt (l := w :: rest) (by simp)
    simp only [listArgmax]
    by_cases hc : v < (w :: rest).getD (listArgmax (w :: rest)) 0
    · rw [if_pos hc]
      exact Nat.succ_lt_succ ih
    · rw [if_neg hc]
      simp

theorem listArgmax_ge : ∀ (l : List ℚ) (x : ℚ), x ∈ l → x ≤ l.getD (listArgmax l) 0
  | [v], x, hx => by
    simp only [List.mem_singleton] at hx
    subst hx
    simp [listArgmax]
  | v :: w :: rest, x, hx => by
    have ih := listArgmax_ge (w :: rest)
    simp only [listArgmax]
    by_cases hc : v < (w :: rest).getD (listArgmax (w :: rest)) 0
    · rw [if_pos hc, List.getD_cons_succ]
      rcases List.mem_cons.mp hx with h1 | h1
      · exact h1 ▸ le_of_lt hc
      · exact ih x h1
    · rw [if_neg hc, List.getD_cons_zero]
      push_neg at hc
      rcases List.mem_cons.mp hx with h1 | h1
      · exact le_of_eq h1
      · exact le_trans (ih x h1) hc

theorem firstPosIdx_spec :
    ∀ {l : List ℚ}, (∃ x ∈ l, 0 < x) →
      firstPosIdx l < l.length ∧ 0 < l.getD (firstPosIdx l) 0
  | x :: rest, h => by
    by_cases hx : 0 < x
    · simp [firstPosIdx, hx]
    · have hr : ∃ y ∈ rest, 0 < y := by
        rcases h with ⟨y, hy, hy0⟩
        rcases List.mem_cons.mp hy with h1 | h1
        · exact absurd (h1 ▸ hy0) hx
        · exact ⟨y, h1, hy0⟩
      have ih := firstPosIdx_spec hr
      refine ⟨by simpa [firstPosIdx, hx] using Nat.succ_lt_succ ih.1, ?_⟩
      simpa [firstPosIdx, hx] using ih.2

theorem countP_set_some {α : Type} :
    ∀ (l : List (Option α)) (i : ℕ) (c : α), i < l.length → l.getD i none = none →
      (l.set i (some c)).countP (fun o => o.isNone) + 1 =
        l.countP (fun o => o.isNone)
  | x :: rest, 0, c, _, hn => by
    have hx : x = none := by simpa [List.getD] using hn
    subst hx
    simp [List.countP_cons]
  | x :: rest, i + 1, c, hi, hn => by
    have ih := countP_set_some rest i c (by simpa using hi)
      (by simpa [List.getD_cons_succ] using hn)
    have hset : (x :: rest).set (i + 1) (some c) = x :: rest.set i (some c) := rfl
    rw [hset, List.countP_cons, List.countP_cons]
    omega

theorem filterMap_set_some_perm {α : Type} :
    ∀ (l : List (Option α)) (i : ℕ) (c : α), i < l.length → l.getD i none = none →
      List.Perm ((l.set i (some c)).filterMap id) (c :: l.filterMap id)
  | x :: rest, 0, c, _, hn => by
    have hx : x = none := by simpa [List.getD] using hn
    subst hx
    simp
  | x :: rest, i + 1, c, hi, hn => by
    have ih := filterMap_set_some_perm rest i c (by simpa using hi)
      (by simpa [List.getD_cons_succ] using hn)
    have hset : (x :: rest).set (i + 1) (some c) = x :: rest.set i (some c) := rfl
    rw [hset]
    cases x with
    | none => simpa using ih
    | some a =>
      simp only [List.filterMap_cons, id]
      exact (ih.cons a).trans (List.Perm.swap c a _)

theorem mem_filterMap_id {α : Type} {l : List (Option α)} {c : α} :
    c ∈ l.filterMap id ↔ some c ∈ l := by
  simp [List.mem_filterMap]

/-! ## Sorted-pivot lemmas for the learning-matrix coordinates -/

theorem getLastD_mem {α : Type} : ∀ (a : α) (t : List α) (d : α), (a :: t).getLastD d ∈ a :: t
  | _, [], _ => by simp
  | a, b :: t, d => by
    rw [List.getLastD_cons]
    exact List.mem_cons_of_mem a (getLastD_mem b t a)

theorem sorted_le_getLastD :
    ∀ {l : List ℚ}, List.Pairwise (· ≤ ·) l → ∀ x ∈ l, ∀ d : ℚ, x ≤ l.getLastD d
  | [], _, x, hx, _ => absurd hx (List.not_mem_nil x)
  | a :: t, hs, x, hx, d => by
    rcases List.pairwise_cons.mp hs with ⟨ha, ht⟩
    rw [List.getLastD_cons]
    cases t with
    | nil =>
      rcases List.mem_cons.mp hx with h1 | h1
      · simpa [List.getLastD] using le_of_eq h1
      · exact absurd h1 (List.not_mem_nil x)
    | cons b t2 =>
      rcases List.mem_cons.mp hx with h1 | h1
      · exact h1 ▸ ha _ (getLastD_mem b t2 a)
      · exact sorted_le_getLastD ht x h1 a

theorem takeWhile_length_eq_countP (v : ℚ) :
    ∀ {l : List ℚ}, List.Pairwise (· ≤ ·) l →
      (l.takeWhile (fun p => decide (p ≤ v))).length = l.countP (fun p => decide (p ≤ v))
  | [], _ => by simp
  | a :: t, hs => by
    rcases List.pairwise_cons.mp hs with ⟨ha, ht⟩
    by_cases hav : a ≤ v
    · simp [List.takeWhile_cons, List.countP_cons, hav, takeWhile_length_eq_countP v ht]
    · have hzero : t.countP (fun p => decide (p ≤ v)) = 0 := by
        rw [List.countP_eq_zero]
        intro b hb
        simp only [decide_eq_true_eq]
        exact fun hbv => hav (le_trans (ha b hb) hbv)
      simp [List.takeWhile_cons, List.countP_cons, hav, hzero]

theorem matrixCoord_eq_countP {l : List ℚ} (hs : List.Pairwise (· ≤ ·) l) (v : ℚ) :
    matrixCoord l v = l.countP (fun p => p ≤ v) := by
  unfold matrixCoord
  by_cases hv : v < l.getLastD 0
  · rw [if_pos hv]
    exact takeWhile_length_eq_countP v hs
  · rw [if_neg hv]
    push_neg at hv
    symm
    rw [List.countP_eq_length]
    intro p hp
    simp only [decide_eq_true_eq]
    exact le_trans (sorted_le_getLastD hs p hp 0) hv

/-- Claim C5, counterexample: with row pivots [1] and column pivots
[1/100, 1], a user with 1 click and cumulative prominence 1/100 - both
values exactly equal to a pivot - is bucketed by the code at (1, 1),
while the claimed strict-exceedance rule predicts (0, 0): the while loop
runs on `value >= pivots[k]`, so equality counts the pivot. -/
theorem compute_position_strict_counterexample :
    computePositionInLearningMatrix [1] [1/100, 1] 1 (1/100) = (1, 1) ∧
    specPositionInLearningMatrix [1] [1/100, 1] 1 (1/100) = (0, 0) ∧
    computePositionInLearningMatrix [1] [1/100, 1] 1 (1/100) ≠
      specPositionInLearningMatrix [1] [1/100, 1] 1 (1/100) := by
  refine ⟨?_, ?_, ?_⟩ <;>
    norm_num [computePositionInLearningMatrix, specPositionInLearningMatrix,
      matrixCoord, List.getLastD, List.takeWhile, List.countP, List.countP.go]

/-- Claim C5 (amended): for nonempty, sorted pivot lists, the grid cell is
(row, column) where the row counts the row pivots LESS THAN OR EQUAL TO the
click count and the column counts the column pivots LESS THAN OR EQUAL TO
the cumulative observed prominence - a value exactly equal to a pivot
counts that pivot, since the while loop advances on `value >= pivots[k]`. -/
theorem compute_position_eq_pivot_counts (rowP colP : List ℚ) (clicks cumsum : ℚ)
    (hrne : rowP ≠ []) (hcne : colP ≠ [])
    (hsr : List.Pairwise (· ≤ ·) rowP) (hsc : List.Pairwise (· ≤ ·) colP) :
    computePositionInLearningMatrix rowP colP clicks cumsum =
      (rowP.countP (fun p => p ≤ clicks), colP.countP (fun p => p ≤ cumsum)) := by
  unfold computePositionInLearningMatrix
  rw [matrixCoord_eq_countP hsr, matrixCoord_eq_countP hsc]

/-- Witness for the amended C5 theorem at the default pivot configuration
and a fresh user (no clicks, no observed prominence). -/
theorem compute_position_eq_pivot_counts_witness :
    (([1] : List ℚ) ≠ [] ∧ ([1/100, 1] : List ℚ) ≠ [] ∧
      List.Pairwise (· ≤ ·) ([1] : List ℚ) ∧
      List.Pairwise (· ≤ ·) ([1/100, 1] : List ℚ)) ∧
    computePositionInLearningMatrix [1] [1/100, 1] 0 0 = (0, 0) := by
  refine ⟨⟨by simp, by simp, by simp, by norm_num⟩, ?_⟩
  refine (compute_position_eq_pivot_counts [1] [1/100, 1] 0 0 (by simp) (by simp)
    (by simp) (by norm_num)).trans ?_
  norm_num [List.countP, List.countP.go]

/-! ## Lemmas on the constructor validation -/

theorem sumBoundsChecked_of_nonneg :
    ∀ {bounds : List ℚ}, (∀ b ∈ bounds, 0 ≤ b) → sumBoundsChecked bounds = .ok bounds.sum
  | [], _ => by simp [sumBoundsChecked]
  | b :: rest, h => by
    have hb : ¬ b < 0 := not_lt.mpr (h b (List.mem_cons_self b rest))
    have ih := sumBoundsChecked_of_nonneg (fun x hx => h x (List.mem_cons_of_mem b hx))
    simp [sumBoundsChecked, hb, ih, Except.map]

theorem sumBoundsChecked_err_of_neg :
    ∀ {bounds : List ℚ}, (∃ b ∈ bounds, b < 0) →
      ∃ e, sumBoundsChecked bounds = .error e
  | b :: rest, h => by
    by_cases hb : b < 0
    · exact ⟨"RuntimeError: allocation diversity bounds cannot be negative",
        by simp [sumBoundsChecked, hb]⟩
    · have hr : ∃ x ∈ rest, x < 0 := by
        rcases h with ⟨x, hx, hx0⟩
        rcases List.mem_cons.mp hx with h1 | h1
        · exact absurd (h1 ▸ hx0) hb
        · exact ⟨x, h1, hx0⟩
      obtain ⟨e, he⟩ := sumBoundsChecked_err_of_neg hr
      exact ⟨e, by simp [sumBoundsChecked, hb, he, Except.map]⟩

theorem getLast?_eq_getLastD {α : Type} :
    ∀ {l : List α}, l ≠ [] → ∀ d : α, l.getLast? = some (l.getLastD d)
  | [_], _, _ => rfl
  | _ :: b :: t, _, d => by
    rw [List.getLast?_cons_cons, List.getLastD_cons]
    exact getLast?_eq_getLastD (by simp) _

/-- Claim C4 (amended): `NewsLearner` construction fails with an error if
any diversity bound is negative, if the diversity bounds sum to more than
the total news-slot prominence, or if any news or ads slot prominence lies
outside [0, 1]; a NONEMPTY diversity-bound list whose length differs from
the category count does not abort construction - the bounds are truncated,
or extended by repeating the last bound, with only a warning (an empty
mismatched list aborts with an IndexError on `bounds[-1]`, see the
counterexample). -/
theorem init_checks_spec (numCats : ℕ) (bounds newsProms adsProms : List ℚ) :
    ((∃ b ∈ bounds, b < 0) →
      ∃ e, initDiversityChecks numCats bounds newsProms adsProms = .error e) ∧
    (bounds.sum > newsProms.sum →
      ∃ e, initDiversityChecks numCats bounds newsProms adsProms = .error e) ∧
    ((∃ p ∈ newsProms ++ adsProms, p < 0 ∨ 1 < p) →
      ∃ e, initDiversityChecks numCats bounds newsProms adsProms = .error e) ∧
    (bounds ≠ [] → (∀ b ∈ bounds, 0 ≤ b) → bounds.sum ≤ newsProms.sum →
      (∀ p ∈ newsProms ++ adsProms, 0 ≤ p ∧ p ≤ 1) → bounds.length ≠ numCats →
      initDiversityChecks numCats bounds newsProms adsProms =
        .ok (if bounds.length < numCats then
               bounds ++ List.replicate (numCats - bounds.length) (bounds.getLastD 0)
             else bounds.take numCats, true)) := by
  refine ⟨?_, ?_, ?_, ?_⟩
  · intro hneg
    obtain ⟨e, he⟩ := sumBoundsChecked_err_of_neg hneg
    exact ⟨e, by simp [initDiversityChecks, he]⟩
  · intro hsum
    by_cases hneg : ∃ b ∈ bounds, b < 0
    · obtain ⟨e, he⟩ := sumBoundsChecked_err_of_neg hneg
      exact ⟨e, by simp [initDiversityChecks, he]⟩
    · push_neg at hneg
      have hok := sumBoundsChecked_of_nonneg hneg
      refine ⟨"RuntimeError: total sum of the allocation diversity bounds exceeds the prominences", ?_⟩
      simp only [initDiversityChecks, hok]
      rw [if_pos hsum]
  · intro hbad
    have hany : (newsProms ++ adsProms).any (fun p => 1 < p || p < 0) = true := by
      rw [List.any_eq_true]
      rcases hbad with ⟨p, hp, hp2⟩
      exact ⟨p, hp, by rcases hp2 with h | h <;> simp [h]⟩
    by_cases hneg : ∃ b ∈ bounds, b < 0
    · obtain ⟨e, he⟩ := sumBoundsChecked_err_of_neg hneg
      exact ⟨e, by simp [initDiversityChecks, he]⟩
    · push_neg at hneg
      have hok := sumBoundsChecked_of_nonneg hneg
      by_cases hsum2 : bounds.sum > newsProms.sum
      · refine ⟨"RuntimeError: total sum of the allocation diversity bounds exceeds the prominences", ?_⟩
        simp only [initDiversityChecks, hok]
        rw [if_pos hsum2]
      · by_cases hlen : bounds.length ≠ numCats
        · cases hadj : adjustBounds numCats bounds with
          | error e =>
            refine ⟨e, ?_⟩
            simp only [initDiversityChecks, hok, if_neg hsum2, if_pos hlen, hadj,
              Except.map]
          | ok bs =>
            refine ⟨"RuntimeError: slot prominence outside zero-one", ?_⟩
            simp only [initDiversityChecks, hok, if_neg hsum2, if_pos hlen, hadj,
              Except.map]
            simp [hany]
        · refine ⟨"RuntimeError: slot prominence outside zero-one", ?_⟩
          simp only [initDiversityChecks, hok, if_neg hsum2, if_neg hlen]
          simp [hany]
  · intro hne hnn hsum hrange hlen
    have hok := sumBoundsChecked_of_nonneg hnn
    have hany : (newsProms ++ adsProms).any (fun p => 1 < p || p < 0) = false := by
      rw [List.any_eq_false]
      intro p hp
      rcases hrange p hp with ⟨h0, h1⟩
      simp [not_lt.mpr h0, not_lt.mpr h1]
    simp only [initDiversityChecks, hok]
    rw [if_neg (not_lt.mpr hsum), if_pos hlen]
    by_cases hlt : bounds.length < numCats
    · rw [if_pos hlt]
      simp only [adjustBounds, if_pos hlt, getLast?_eq_getLastD hne (0 : ℚ), Except.map]
      rw [hany]
      simp
    · rw [if_neg hlt]
      simp only [adjustBounds, if_neg hlt, Except.map]
      rw [hany]
      simp

/-- Claim C4, boundary counterexample: an EMPTY diversity-bound list with a
positive category count is a length mismatch, yet construction aborts with
an IndexError when the extension reads `allocation_diversity_bounds[-1]`,
contradicting the claim that a mismatched bound list never aborts
construction. -/
theorem init_checks_empty_bounds_counterexample :
    initDiversityChecks 2 [] [1/2] [1/2] =
      .error "IndexError: list index out of range" := by
  norm_num [initDiversityChecks, sumBoundsChecked, adjustBounds, Except.map]

/-- Witness for the amended C4 theorem: two categories, three bounds - the
surplus bound is truncated away, construction succeeds with the warning
flag set. -/
theorem init_checks_spec_witness :
    (([1/10, 1/10, 1/10] : List ℚ) ≠ [] ∧
      ([1/10, 1/10, 1/10] : List ℚ).sum ≤ ([1, 1] : List ℚ).sum ∧
      ([1/10, 1/10, 1/10] : List ℚ).length ≠ 2) ∧
    initDiversityChecks 2 [1/10, 1/10, 1/10] [1, 1] [1] = .ok ([1/10, 1/10], true) := by
  refine ⟨⟨by simp, by norm_num, by simp⟩, ?_⟩
  refine ((init_checks_spec 2 [1/10, 1/10, 1/10] [1, 1] [1]).2.2.2 (by simp)
    (by norm_num) (by norm_num)
    (by intro p hp; fin_cases hp <;> norm_num) (by simp)).trans ?_
  norm_num

/-- Claim C10: the sum-of-bounds check runs before the bound list is
extended, so a configuration with three categories, the single bound 3/5
and one news slot of prominence 1 is accepted (3/5 <= 1) although the
extended bounds [3/5, 3/5, 3/5] sum to 9/5, strictly more than the total
news-slot prominence. -/
theorem sum_check_precedes_extension :
    initDiversityChecks 3 [3/5] [1] [1] = .ok ([3/5, 3/5, 3/5], true) ∧
    ([3/5, 3/5, 3/5] : List ℚ).sum > ([1] : List ℚ).sum := by
  constructor
  · norm_num [initDiversityChecks, sumBoundsChecked, adjustBounds, Except.map,
      List.replicate]
  · norm_num

/-- Claim C3: the candidate-selection loop of the LP strategy.  On a pool
of three news (two of category 0, one of category 1, so the pool is larger
than the 2 slots but category 1 is short) the loop executes
`raise RuntimeWarning(...)` - an uncaught exception that aborts the
allocation - instead of padding and warning as both the claim and the
docstring of `__solve_linear_problem` describe. -/
theorem lp_subset_build_raises :
    buildLPSelect 2 [⟨2, 0, 1/2⟩, ⟨3, 0, 1/2⟩, ⟨1, 1, 1/2⟩] =
      .error "RuntimeWarning: not enough news per category found" ∧
    ([⟨2, 0, 1/2⟩, ⟨3, 0, 1/2⟩, ⟨1, 1, 1/2⟩] : List NewsIt).length = 3 ∧
    ([⟨2, 0, 1/2⟩, ⟨3, 0, 1/2⟩, ⟨1, 1, 1/2⟩] : List NewsIt).countP
      (fun n => n.cat = 1) = 1 := by
  refine ⟨?_, by simp, by simp [List.countP_cons]⟩
  norm_num [buildLPSelect, buildLPSelectGo, sortByCatQualityDesc,
    List.insertionSort, List.orderedInsert]

/-! ## Lemmas on filling the news pool -/

theorem validateNewsList_ok_iff (cats : List ℕ) :
    ∀ items : List Content,
      validateNewsList cats items = .ok () ↔ ∀ c ∈ items, contentAccepted cats c = true
  | [] => by simp [validateNewsList]
  | .news n :: rest => by
    by_cases hn : n.cat ∈ cats
    · simp [validateNewsList, hn, contentAccepted, validateNewsList_ok_iff cats rest]
    · simp [validateNewsList, hn, contentAccepted]
  | .ad a :: rest => by
    simp [validateNewsList, contentAccepted]

/-- Claim C8 (amended): `fill_news_pool` fails exactly when some supplied
element is not a News object or has a category outside the agent set, and
then the pool is untouched (validation precedes every insertion); on valid
input with any allocation approach other than "full", `append = false`
makes the pool exactly the supplied list and `append = true` appends it,
while under the "full" approach the resulting pool is additionally sorted
by category in ascending order. -/
theorem fill_news_pool_spec (cats : List ℕ) (approach : String) (pool : List NewsIt)
    (items : List Content) (append : Bool) :
    ((fill_news_pool cats approach pool items append).1 = .ok () ↔
       ∀ c ∈ items, contentAccepted cats c = true) ∧
    ((∃ c ∈ items, contentAccepted cats c = false) →
       (fill_news_pool cats approach pool items append).2 = pool) ∧
    ((∀ c ∈ items, contentAccepted cats c = true) → approach ≠ "full" →
       (fill_news_pool cats approach pool items append).2 =
         (if append then pool ++ newsOf items else newsOf items)) ∧
    ((∀ c ∈ items, contentAccepted cats c = true) → approach = "full" →
       (fill_news_pool cats approach pool items append).2 =
         (if append then pool ++ newsOf items else newsOf items).insertionSort
           (fun a b => a.cat ≤ b.cat)) := by
  refine ⟨?_, ?_, ?_, ?_⟩
  · cases hv : validateNewsList cats items with
    | error e =>
      simp only [fill_news_pool, hv]
      constructor
      · intro h
        exact absurd h (by simp)
      · intro h
        rw [(validateNewsList_ok_iff cats items).mpr h] at hv
        exact absurd hv (by simp)
    | ok u =>
      cases u
      simp only [fill_news_pool, hv]
      simp only [true_iff, eq_self_iff_true]
      exact fun c hc => ((validateNewsList_ok_iff cats items).mp hv) c hc
  · intro hbad
    cases hv : validateNewsList cats items with
    | error e => simp [fill_news_pool, hv]
    | ok u =>
      cases u
      rcases hbad with ⟨c, hc, hfalse⟩
      have := ((validateNewsList_ok_iff cats items).mp hv) c hc
      rw [this] at hfalse
      exact absurd hfalse (by simp)
  · intro hgood hap
    rw [← validateNewsList_ok_iff cats items] at hgood
    simp [fill_news_pool, hgood, hap]
  · intro hgood hap
    rw [← validateNewsList_ok_iff cats items] at hgood
    simp [fill_news_pool, hgood, hap]

/-- Claim C8, counterexample: with the "full" allocation approach the pool
is re-sorted by category after insertion, so with `append = false` the
resulting pool is a permutation of the supplied list, not the supplied
list itself. -/
theorem fill_news_pool_full_sort_counterexample :
    fill_news_pool [0, 1] "full" [] [.news ⟨1, 1, 0⟩, .news ⟨2, 0, 0⟩] false =
      (.ok (), [⟨2, 0, 0⟩, ⟨1, 1, 0⟩]) ∧
    newsOf [.news ⟨1, 1, 0⟩, .news ⟨2, 0, 0⟩] = [⟨1, 1, 0⟩, ⟨2, 0, 0⟩] ∧
    ([⟨2, 0, 0⟩, ⟨1, 1, 0⟩] : List NewsIt) ≠ [⟨1, 1, 0⟩, ⟨2, 0, 0⟩] := by
  refine ⟨?_, by simp [newsOf, List.filterMap], ?_⟩
  · norm_num [fill_news_pool, validateNewsList, newsOf, List.filterMap,
      List.insertionSort, List.orderedInsert]
  · simp [NewsIt.mk.injEq]

/-- Witness for the amended C8 theorem: a valid item appended under the
standard approach. -/
theorem fill_news_pool_spec_witness :
    (∀ c ∈ [Content.news ⟨7, 0, 0⟩], contentAccepted [0] c = true) ∧
    (fill_news_pool [0] "standard" [⟨5, 0, 0⟩] [.news ⟨7, 0, 0⟩] true).2 =
      [⟨5, 0, 0⟩, ⟨7, 0, 0⟩] := by
  refine ⟨by simp [contentAccepted], ?_⟩
  refine ((fill_news_pool_spec [0] "standard" [⟨5, 0, 0⟩] [.news ⟨7, 0, 0⟩] true).2.2.1
    (by simp [contentAccepted]) (by simp)).trans ?_
  simp [newsOf, List.filterMap]

/-! ## Lemmas on removing ads from the pool -/

theorem scanRemoveAds_eq_filter (adsList : List AdIt) :
    ∀ pool : List AdIt,
      scanRemoveAds adsList pool = pool.filter (fun a => decide (a ∉ adsList))
  | [] => by simp [scanRemoveAds]
  | x :: rest => by
    by_cases hx : x ∈ adsList
    · simp [scanRemoveAds, hx, List.filter_cons, scanRemoveAds_eq_filter adsList rest]
    · simp [scanRemoveAds, hx, List.filter_cons, scanRemoveAds_eq_filter adsList rest]

/-- Claim C9: for either technique string accepted by
`find_ads_best_allocation` ("LP" or "res_LP"), `remove_ad_from_pool` drops
every occurrence of the listed ads from the pool but leaves the
`ads_per_category` buffers untouched, because the purge branch compares the
technique with the string "resLP", which neither accepted value equals. -/
theorem remove_ad_spec (tech : String) (adsPool : List AdIt)
    (buffers : List (List (List AdIt))) (adsList : List AdIt)
    (h : adsTechniqueAccepted tech = true) :
    (remove_ad_from_pool tech adsPool buffers adsList).1 =
      adsPool.filter (fun a => a ∉ adsList) ∧
    (remove_ad_from_pool tech adsPool buffers adsList).2 = buffers := by
  have h2 : tech = "LP" ∨ tech = "res_LP" := by
    have h3 := h
    simp [adsTechniqueAccepted] at h3
    exact h3
  have htech : tech ≠ "resLP" := by
    rcases h2 with h1 | h1 <;> rw [h1] <;> decide
  constructor
  · exact scanRemoveAds_eq_filter adsList adsPool
  · simp [remove_ad_from_pool, htech]

/-- Witness for the C9 theorem: technique "LP", a pool holding one listed
ad and one unrelated ad, and a one-category buffer matrix. -/
theorem remove_ad_spec_witness :
    adsTechniqueAccepted "LP" = true ∧
    (remove_ad_from_pool "LP" [adExA, ⟨3, 0, false⟩] [[[], [adExA]]] [adExA]).1 =
      [⟨3, 0, false⟩] ∧
    (remove_ad_from_pool "LP" [adExA, ⟨3, 0, false⟩] [[[], [adExA]]] [adExA]).2 =
      [[[], [adExA]]] := by
  have hmain := remove_ad_spec "LP" [adExA, ⟨3, 0, false⟩] [[[], [adExA]]] [adExA] rfl
  refine ⟨rfl, hmain.1.trans ?_, hmain.2⟩
  simp [adExA, List.filter_cons, AdIt.mk.injEq]

/-! ## Lemmas on the standard allocation loop -/

theorem countP_isNone_replicate {α : Type} :
    ∀ n : ℕ, (List.replicate n (none : Option α)).countP (fun o => o.isNone) = n
  | 0 => by simp
  | n + 1 => by
    simp [List.replicate_succ, List.countP_cons, countP_isNone_replicate n]

theorem filterMap_id_replicate_none {α : Type} :
    ∀ n : ℕ, (List.replicate n (none : Option α)).filterMap id = []
  | 0 => by simp
  | n + 1 => by simp [List.replicate_succ, filterMap_id_replicate_none n]

theorem getD_replicate_none {α : Type} (n i : ℕ) :
    (List.replicate n (none : Option α)).getD i none = none := by
  by_cases h : i < n
  · rw [List.getD_eq_getElem _ _ (by simpa using h)]
    simp
  · exact List.getD_eq_default _ _ (by simpa using not_lt.mp h)

theorem allocStandardLoop_spec :
    ∀ (fuel : ℕ) (proms : List ℚ) (pool : List NewsIt) (result : List (Option NewsIt)),
      result.countP (fun o => o.isNone) = fuel →
      proms.length = result.length →
      fuel ≤ pool.length →
      (∀ i, i < result.length → (result.getD i none = none ↔ 0 ≤ proms.getD i (-1))) →
      (allocStandardLoop fuel proms pool result).length = result.length ∧
      (allocStandardLoop fuel proms pool result).countP (fun o => o.isNone) = 0 ∧
      List.Perm ((allocStandardLoop fuel proms pool result).filterMap id)
        (result.filterMap id ++ pool.take fuel)
  | 0, proms, pool, result, h1, _, _, _ => by
    refine ⟨rfl, h1, ?_⟩
    simp [allocStandardLoop]
  | fuel + 1, proms, pool, result, h1, h2, h3, hiff => by
    match pool with
    | [] => exact absurd h3 (by simp)
    | h :: t =>
      have hex : ∃ o ∈ result, (fun o => o.isNone) o = true := by
        refine List.countP_pos_iff.mp ?_
        omega
      obtain ⟨o, ho, hoNone⟩ := hex
      obtain ⟨i, hi, hoi⟩ := List.mem_iff_getElem.mp ho
      have hresi : result.getD i none = none := by
        rw [List.getD_eq_getElem _ _ hi, hoi]
        exact Option.isNone_iff_eq_none.mp hoNone
      have hpromsne : proms ≠ [] := by
        have : 0 < proms.length := by omega
        exact List.ne_nil_of_length_pos this
      have htargetlt : listArgmax proms < proms.length := listArgmax_lt hpromsne
      have hx0 : 0 ≤ proms.getD i (-1) := (hiff i hi).mp hresi
      have hxmem : proms.getD i (-1) ∈ proms := getD_mem proms i (-1) (by omega)
      have htargetval : 0 ≤ proms.getD (listArgmax proms) (-1) := by
        have hge := listArgmax_ge proms (proms.getD i (-1)) hxmem
        rw [List.getD_eq_getElem _ _ htargetlt] at hge
        rw [List.getD_eq_getElem _ _ htargetlt]
        exact le_trans hx0 hge
      have htargetres : listArgmax proms < result.length := by omega
      have htargetnone : result.getD (listArgmax proms) none = none :=
        (hiff (listArgmax proms) htargetres).mpr htargetval
      have hcount : (result.set (listArgmax proms) (some h)).countP (fun o => o.isNone) =
          fuel := by
        have := countP_set_some result (listArgmax proms) h htargetres htargetnone
        omega
      have hlen2 : (proms.set (listArgmax proms) (-1)).length =
          (result.set (listArgmax proms) (some h)).length := by
        simp [h2]
      have hiff2 : ∀ j, j < (result.set (listArgmax proms) (some h)).length →
          ((result.set (listArgmax proms) (some h)).getD j none = none ↔
            0 ≤ (proms.set (listArgmax proms) (-1)).getD j (-1)) := by
        intro j hj
        rw [List.length_set] at hj
        by_cases hji : listArgmax proms = j
        · subst hji
          rw [getD_set_self result _ _ _ htargetres,
            getD_set_self proms _ _ _ htargetlt]
          constructor
          · intro hcontra
            exact absurd hcontra (by simp)
          · intro hcontra
            norm_num at hcontra
        · rw [getD_set_ne result _ _ _ _ hji, getD_set_ne proms _ _ _ _ hji]
          exact hiff j hj
      have ih := allocStandardLoop_spec fuel (proms.set (listArgmax proms) (-1)) t
        (result.set (listArgmax proms) (some h)) hcount hlen2
        (by have h4 := h3; simp [List.length_cons] at h4; omega) hiff2
      refine ⟨?_, ih.2.1, ?_⟩
      · simpa [allocStandardLoop, List.length_set] using ih.1
      · have hperm1 := filterMap_set_some_perm result (listArgmax proms) h htargetres
          htargetnone
        have hstep : (allocStandardLoop (fuel + 1) proms (h :: t) result) =
            allocStandardLoop fuel (proms.set (listArgmax proms) (-1)) t
              (result.set (listArgmax proms) (some h)) := rfl
        rw [hstep, List.take_succ_cons]
        refine ih.2.2.trans ?_
        refine ((hperm1.append_right (t.take fuel)).trans ?_)
        exact List.perm_middle.symm

/-- Claim C2: with a valid configuration (slot prominences nonnegative, as
enforced at construction), `find_best_allocation` with the standard
approach fails before sampling or mutating anything when the pool holds
fewer items than the page has slots, and otherwise returns a layout of
exactly one news per slot with no pool entry used twice. -/
theorem find_best_allocation_standard_spec (sample : NewsIt → ℚ) (proms : List ℚ)
    (pool : List NewsIt) (hp : ∀ p ∈ proms, 0 ≤ p) :
    (pool.length < proms.length →
      find_best_allocation_standard sample proms pool =
        (.error "RuntimeError: the news pool is empty or too few articles are present",
         pool)) ∧
    (proms.length ≤ pool.length →
      ∃ layout,
        (find_best_allocation_standard sample proms pool).1 = .ok layout ∧
        layout.length = proms.length ∧
        (∀ o ∈ layout, o.isSome = true) ∧
        ((pool.map (fun n => n.nid)).Nodup →
          ((layout.filterMap id).map (fun n => n.nid)).Nodup)) := by
  constructor
  · intro hshort
    simp [find_best_allocation_standard, hshort]
  · intro hlen
    have hnotlt : ¬ pool.length < proms.length := not_lt.mpr hlen
    have hsortlen :
        (sortByQualityDesc (pool.map (fun n => { n with quality := sample n }))).length =
          pool.length := by
      rw [sortByQualityDesc, (List.perm_insertionSort _ _).length_eq, List.length_map]
    have hiff : ∀ i, i < (List.replicate proms.length (none : Option NewsIt)).length →
        ((List.replicate proms.length (none : Option NewsIt)).getD i none = none ↔
          0 ≤ proms.getD i (-1)) := by
      intro i hi
      rw [List.length_replicate] at hi
      rw [getD_replicate_none]
      have hmem : proms.getD i (-1) ∈ proms := getD_mem proms i (-1) hi
      exact ⟨fun _ => hp _ hmem, fun _ => rfl⟩
    have hspec := allocStandardLoop_spec proms.length proms
      (sortByQualityDesc (pool.map (fun n => { n with quality := sample n })))
      (List.replicate proms.length none)
      (countP_isNone_replicate proms.length)
      (List.length_replicate _ _).symm
      (by rw [hsortlen]; exact hlen)
      hiff
    refine ⟨allocStandardLoop proms.length proms
      (sortByQualityDesc (pool.map (fun n => { n with quality := sample n })))
      (List.replicate proms.length none), ?_, ?_, ?_, ?_⟩
    · simp [find_best_allocation_standard, hnotlt]
    · rw [hspec.1, List.length_replicate]
    · intro o ho
      have hcnt := hspec.2.1
      have : ¬ o.isNone = true := by
        intro hno
        have : 0 < (allocStandardLoop proms.length proms
            (sortByQualityDesc (pool.map (fun n => { n with quality := sample n })))
            (List.replicate proms.length none)).countP (fun o => o.isNone) :=
          List.countP_pos_iff.mpr ⟨o, ho, hno⟩
        omega
      cases o with
      | none => exact absurd rfl this
      | some a => rfl
    · intro hnodup
      have hperm := hspec.2.2
      rw [filterMap_id_replicate_none, List.nil_append] at hperm
      have hmapids :
          List.Perm
            ((sortByQualityDesc (pool.map (fun n => { n with quality := sample n }))).map
              (fun n => n.nid))
            (pool.map (fun n => n.nid)) := by
        have h1 := (List.perm_insertionSort
          (fun a b => b.quality ≤ a.quality)
          (pool.map (fun n => { n with quality := sample n }))).map (fun n => n.nid)
        rw [List.map_map] at h1
        exact h1
      have hsortnodup :
          ((sortByQualityDesc (pool.map (fun n => { n with quality := sample n }))).map
            (fun n => n.nid)).Nodup := hmapids.nodup_iff.mpr hnodup
      have htakenodup :
          (((sortByQualityDesc (pool.map (fun n => { n with quality := sample n }))).take
            proms.length).map (fun n => n.nid)).Nodup := by
        rw [List.map_take]
        exact List.Sublist.nodup (List.take_sublist _ _) hsortnodup
      exact ((hperm.map (fun n => n.nid)).nodup_iff).mpr htakenodup

/-- Witness for the C2 theorem: the error branch on an empty pool, and the
success branch on a pool of two items for two slots. -/
theorem find_best_allocation_standard_spec_witness :
    (∀ p ∈ ([1, 1/2] : List ℚ), 0 ≤ p) ∧
    find_best_allocation_standard (fun n => n.quality) [1, 1/2] [] =
      (.error "RuntimeError: the news pool is empty or too few articles are present",
       []) ∧
    (∃ layout,
      (find_best_allocation_standard (fun n => n.quality) [1, 1/2]
        [⟨1, 0, 1⟩, ⟨2, 0, 0⟩]).1 = .ok layout ∧
      layout.length = ([1, 1/2] : List ℚ).length ∧
      (∀ o ∈ layout, o.isSome = true) ∧
      ((([⟨1, 0, 1⟩, ⟨2, 0, 0⟩] : List NewsIt).map (fun n => n.nid)).Nodup →
        ((layout.filterMap id).map (fun n => n.nid)).Nodup)) := by
  have hp : ∀ p ∈ ([1, 1/2] : List ℚ), 0 ≤ p := by
    intro p hp
    fin_cases hp <;> norm_num
  refine ⟨hp, ?_, ?_⟩
  · exact (find_best_allocation_standard_spec (fun n => n.quality) [1, 1/2] [] hp).1
      (by simp)
  · exact (find_best_allocation_standard_spec (fun n => n.quality) [1, 1/2]
      [⟨1, 0, 1⟩, ⟨2, 0, 0⟩] hp).2 (by simp)

/-- Claim C6: the standard (greedy) allocation is a function of the
sampled qualities and slot prominences alone; on 2 slots with prominences
[9/10, 1/2], zero diversity pressure (the standard approach never reads
the bounds) and four news A(cat 1, 9/10), B(cat 1, 8/10), C(cat 2, 2/10),
D(cat 2, 1/10), it puts A in slot 0 and B in slot 1; with equal sampled
qualities the tie breaks by stable input order (the earlier pool item gets
the more prominent slot). -/
theorem greedy_concrete_scenario :
    (find_best_allocation_standard (fun n => n.quality) [9/10, 1/2]
        [⟨1, 1, 9/10⟩, ⟨2, 1, 8/10⟩, ⟨3, 2, 2/10⟩, ⟨4, 2, 1/10⟩]).1 =
      .ok [some ⟨1, 1, 9/10⟩, some ⟨2, 1, 8/10⟩] ∧
    (find_best_allocation_standard (fun n => n.quality) [9/10, 1/2]
        [⟨5, 1, 1/2⟩, ⟨6, 1, 1/2⟩]).1 =
      .ok [some ⟨5, 1, 1/2⟩, some ⟨6, 1, 1/2⟩] := by
  constructor <;>
    norm_num [find_best_allocation_standard, sortByQualityDesc, List.insertionSort,
      List.orderedInsert, allocStandardLoop, listArgmax, List.replicate, List.set]

/-! ## Invariant proof of the derandomization loop -/

theorem deRandStep_error_msg (tech : LpRandTech) (orc : DROracle) (st : DRState)
    (e : String) (h : deRandStep tech orc st = .error e) :
    e = "ValueError: probabilities contain NaN" := by
  cases tech
  all_goals
    simp only [deRandStep] at h
    split at h
    · exact (Except.error.inj h).symm
    · exact Except.noConfusion h

theorem deRandStep_ok_inv (tech : LpRandTech) (orc : DROracle) (st st2 : DRState)
    (h : deRandStep tech orc st = .ok st2) :
    ∃ tp, st2.result = st.result.set (deRandTarget tech orc st.step st.tmp)
        (some (st.feas.getD (orc.pickNews st.step tp st.feas) 0)) ∧
      st2.tmp = st.tmp.set (deRandTarget tech orc st.step st.tmp) 0 ∧
      st2.feas = st.feas.eraseIdx
        (firstIdxOf (st.feas.getD (orc.pickNews st.step tp st.feas) 0) st.feas) := by
  cases tech with
  | rand_1 =>
    simp only [deRandStep] at h
    split at h
    · exact Except.noConfusion h
    · obtain rfl := Except.ok.inj h
      exact ⟨st.probs.getD (deRandTarget .rand_1 orc st.step st.tmp) [],
        rfl, rfl, rfl⟩
  | rand_2 =>
    simp only [deRandStep] at h
    split at h
    · exact Except.noConfusion h
    · obtain rfl := Except.ok.inj h
      exact ⟨st.probs.getD (deRandTarget .rand_2 orc st.step st.tmp) [],
        rfl, rfl, rfl⟩
  | rand_3 =>
    simp only [deRandStep] at h
    split at h
    · exact Except.noConfusion h
    · obtain rfl := Except.ok.inj h
      exact ⟨dampProbs st.probs st.allocated
        (deRandTarget .rand_3 orc st.step st.tmp)
        (st.probs.getD (deRandTarget .rand_3 orc st.step st.tmp) []),
        rfl, rfl, rfl⟩

theorem deRandLoop_spec (tech : LpRandTech) (orc : DROracle) (n : ℕ)
    (horc1 : ∀ k tmp, (∃ x ∈ tmp, 0 < x) →
      orc.pickSlot k tmp < tmp.length ∧ 0 < tmp.getD (orc.pickSlot k tmp) 0)
    (horc2 : ∀ k tp feas, feas ≠ [] → orc.pickNews k tp feas < feas.length) :
    ∀ (fuel : ℕ) (st : DRState) (L : ℕ),
      st.result.length = L →
      st.tmp.length = L →
      st.result.countP (fun o => o.isNone) = fuel →
      (∀ i, i < L → (0 < st.tmp.getD i 0 ↔ st.result.getD i none = none)) →
      st.feas.Nodup →
      fuel ≤ st.feas.length →
      (∀ c ∈ st.feas, c < n) →
      (st.result.filterMap id).Nodup →
      (∀ c : ℕ, some c ∈ st.result → c ∉ st.feas) →
      (∀ c : ℕ, some c ∈ st.result → c < n) →
      deRandLoop tech orc fuel st = .error "ValueError: probabilities contain NaN" ∨
      ∃ stF, deRandLoop tech orc fuel st = .ok stF ∧
        stF.result.length = L ∧
        stF.result.countP (fun o => o.isNone) = 0 ∧
        (stF.result.filterMap id).Nodup ∧
        (∀ c : ℕ, some c ∈ stF.result → c < n)
  | 0, st, L, h1, _, h3, _, _, _, _, h8, _, h10 =>
    .inr ⟨st, rfl, h1, h3, h8, h10⟩
  | fuel + 1, st, L, h1, h2, h3, hiff, h5, h6, h7, h8, h9, h10 => by
    cases hsc : deRandStep tech orc st with
    | error e =>
      left
      have hmsg := deRandStep_error_msg tech orc st e hsc
      subst hmsg
      simp only [deRandLoop, hsc]
    | ok st2 =>
      -- locate an unfilled slot, whose prominence is still positive
      have hex : ∃ o ∈ st.result, (fun o => o.isNone) o = true := by
        refine List.countP_pos_iff.mp ?_
        omega
      obtain ⟨o, ho, hoNone⟩ := hex
      obtain ⟨i, hi, hoi⟩ := List.mem_iff_getElem.mp ho
      have hiL : i < L := by omega
      have hresi : st.result.getD i none = none := by
        rw [List.getD_eq_getElem _ _ hi, hoi]
        exact Option.isNone_iff_eq_none.mp hoNone
      have htmpi : 0 < st.tmp.getD i 0 := (hiff i hiL).mpr hresi
      have htmpne : st.tmp ≠ [] := by
        refine List.ne_nil_of_length_pos ?_
        omega
      -- the chosen target slot is in range and still unfilled
      have htarget : deRandTarget tech orc st.step st.tmp < L ∧
          0 < st.tmp.getD (deRandTarget tech orc st.step st.tmp) 0 := by
        cases tech with
        | rand_2 =>
          have hvalid := horc1 st.step st.tmp
            ⟨st.tmp.getD i 0, getD_mem st.tmp i 0 (by omega), htmpi⟩
          have hmem : st.tmp.getD (orc.pickSlot st.step st.tmp) 0 ∈ st.tmp :=
            getD_mem st.tmp _ 0 hvalid.1
          constructor
          · have := firstIdxOf_lt_length hmem
            simpa [deRandTarget, h2] using this
          · have heq := getD_firstIdxOf (0 : ℚ) hmem
            simp only [deRandTarget]
            rw [heq]
            exact hvalid.2
        | rand_1 =>
          constructor
          · have := listArgmax_lt htmpne
            simpa [deRandTarget, h2] using this
          · have hge := listArgmax_ge st.tmp (st.tmp.getD i 0)
              (getD_mem st.tmp i 0 (by omega))
            simpa [deRandTarget] using lt_of_lt_of_le htmpi hge
        | rand_3 =>
          constructor
          · have := listArgmax_lt htmpne
            simpa [deRandTarget, h2] using this
          · have hge := listArgmax_ge st.tmp (st.tmp.getD i 0)
              (getD_mem st.tmp i 0 (by omega))
            simpa [deRandTarget] using lt_of_lt_of_le htmpi hge
      have hfeasne : st.feas ≠ [] := by
        refine List.ne_nil_of_length_pos ?_
        omega
      -- a successful step updates the state componentwise
      obtain ⟨tp, hres, htmp, hfeas⟩ := deRandStep_ok_inv tech orc st st2 hsc
      have hposlt : orc.pickNews st.step tp st.feas < st.feas.length :=
        horc2 st.step tp st.feas hfeasne
      have hchosenmem : st.feas.getD (orc.pickNews st.step tp st.feas) 0 ∈ st.feas :=
        getD_mem st.feas _ 0 hposlt
      have hfeas2 : st2.feas =
          st.feas.erase (st.feas.getD (orc.pickNews st.step tp st.feas) 0) :=
        hfeas.trans (eraseIdx_firstIdxOf st.feas _)
      have htargetres : deRandTarget tech orc st.step st.tmp < st.result.length := by
        omega
      have htargetnone : st.result.getD (deRandTarget tech orc st.step st.tmp) none =
          none := (hiff _ htarget.1).mp htarget.2
      have hchosen_not_old :
          st.feas.getD (orc.pickNews st.step tp st.feas) 0 ∉ st.result.filterMap id := by
        intro hmem
        exact h9 _ (mem_filterMap_id.mp hmem) hchosenmem
      have hperm := filterMap_set_some_perm st.result
        (deRandTarget tech orc st.step st.tmp)
        (st.feas.getD (orc.pickNews st.step tp st.feas) 0) htargetres htargetnone
      have hloopstep : deRandLoop tech orc (fuel + 1) st =
          deRandLoop tech orc fuel st2 := by
        simp only [deRandLoop, hsc]
      rw [hloopstep]
      refine deRandLoop_spec tech orc n horc1 horc2 fuel st2 L
        ?_ ?_ ?_ ?_ ?_ ?_ ?_ ?_ ?_ ?_
      · rw [hres, List.length_set, h1]
      · rw [htmp, List.length_set, h2]
      · rw [hres]
        have := countP_set_some st.result (deRandTarget tech orc st.step st.tmp)
          (st.feas.getD (orc.pickNews st.step tp st.feas) 0) htargetres htargetnone
        omega
      · intro j hj
        rw [hres, htmp]
        by_cases hji : deRandTarget tech orc st.step st.tmp = j
        · subst hji
          rw [getD_set_self st.tmp _ _ _ (by omega),
            getD_set_self st.result _ _ _ htargetres]
          constructor
          · intro hcontra
            norm_num at hcontra
          · intro hcontra
            exact absurd hcontra (by simp)
        · rw [getD_set_ne st.tmp _ _ _ _ hji, getD_set_ne st.result _ _ _ _ hji]
          exact hiff j hj
      · rw [hfeas2]
        exact h5.erase _
      · rw [hfeas2, List.length_erase_of_mem hchosenmem]
        omega
      · intro c hc
        rw [hfeas2] at hc
        exact h7 c (List.mem_of_mem_erase hc)
      · rw [hres]
        refine hperm.nodup_iff.mpr ?_
        exact List.nodup_cons.mpr ⟨hchosen_not_old, h8⟩
      · intro c hc
        rw [hres] at hc
        rw [hfeas2]
        rcases List.mem_or_eq_of_mem_set hc with hold | hnew
        · intro hcontra
          exact h9 c hold (List.mem_of_mem_erase hcontra)
        · have : c = st.feas.getD (orc.pickNews st.step tp st.feas) 0 :=
            Option.some_injective _ hnew
          rw [this]
          exact h5.not_mem_erase
      · intro c hc
        rw [hres] at hc
        rcases List.mem_or_eq_of_mem_set hc with hold | hnew
        · exact h10 c hold
        · have : c = st.feas.getD (orc.pickNews st.step tp st.feas) 0 :=
            Option.some_injective _ hnew
          rw [this]
          exact h7 _ hchosenmem

/-- Claim C1 (amended): for each derandomization technique rand_1, rand_2,
rand_3, given at least as many candidates as slots, strictly positive slot
prominences (so the slot normalization of the rand_2 draw is well defined)
and any per-slot weight vectors, `__de_randomize_LP` either aborts with
the ValueError numpy raises when a processed slot's remaining (for rand_3
dampened) weight vector sums to zero - the one normalization the stated
hypotheses leave degenerate - or returns a length-L layout in which every
slot holds exactly one candidate and no candidate occupies two distinct
slots.  The random draws are universally quantified through a choice
oracle constrained to the draws numpy can make: a slot is drawn only while
its remaining prominence is positive, a candidate only from the
still-feasible list. -/
theorem de_randomize_LP_spec (tech : LpRandTech) (orc : DROracle) (proms : List ℚ)
    (numCandidates : ℕ) (probs : List (List ℚ))
    (hpos : ∀ p ∈ proms, 0 < p)
    (hn : proms.length ≤ numCandidates)
    (horc1 : ∀ k tmp, (∃ x ∈ tmp, 0 < x) →
      orc.pickSlot k tmp < tmp.length ∧ 0 < tmp.getD (orc.pickSlot k tmp) 0)
    (horc2 : ∀ k tp feas, feas ≠ [] → orc.pickNews k tp feas < feas.length) :
    de_randomize_LP tech orc proms numCandidates probs =
      .error "ValueError: probabilities contain NaN" ∨
    ∃ layout, de_randomize_LP tech orc proms numCandidates probs = .ok layout ∧
      layout.length = proms.length ∧
      (∀ o ∈ layout, o.isSome = true) ∧
      (layout.filterMap id).Nodup ∧
      (∀ c : ℕ, some c ∈ layout → c < numCandidates) := by
  have hmain := deRandLoop_spec tech orc numCandidates horc1 horc2 proms.length
    { result := List.replicate proms.length none
      tmp := proms
      feas := List.range numCandidates
      probs := probs
      allocated := []
      step := 0 }
    proms.length
    (List.length_replicate _ _)
    rfl
    (countP_isNone_replicate proms.length)
    (by
      intro i hiL
      rw [getD_replicate_none]
      have hmem : proms.getD i 0 ∈ proms := getD_mem proms i 0 hiL
      exact ⟨fun _ => rfl, fun _ => hpos _ hmem⟩)
    (List.nodup_range numCandidates)
    (by rw [List.length_range]; exact hn)
    (fun c hc => List.mem_range.mp hc)
    (by rw [filterMap_id_replicate_none]; exact List.nodup_nil)
    (by
      intro c hc
      have := List.eq_of_mem_replicate hc
      exact absurd this (by simp))
    (by
      intro c hc
      have := List.eq_of_mem_replicate hc
      exact absurd this (by simp))
  rcases hmain with herr | ⟨stF, hok, hlen, hcount, hnodup, hbound⟩
  · left
    simp only [de_randomize_LP, herr, Except.map]
  · right
    refine ⟨stF.result, ?_, hlen, ?_, hnodup, hbound⟩
    · simp only [de_randomize_LP, hok, Except.map]
    · intro o ho
      have hnotnone : ¬ o.isNone = true := by
        intro hno
        have hpos0 : 0 < stF.result.countP (fun o => o.isNone) :=
          List.countP_pos_iff.mpr ⟨o, ho, hno⟩
        omega
      cases o with
      | none => exact absurd rfl hnotnone
      | some a => rfl

/-- Claim C1, counterexample: with 2 slots of strictly positive prominences
[1, 1/2], 2 candidates and the per-slot weight vectors [[1, 0], [1, 0]], a
run of `__de_randomize_LP` (technique rand_1, choice oracle drawing the
first feasible candidate - the ONLY draw of positive probability here,
since slot 0's weight vector gives candidate 0 all the mass) allocates
candidate 0 to slot 0 and then reaches slot 1 with the remaining weight
vector [0]: the normalization `tmp_news_probabilities /
sum(tmp_news_probabilities)` of lines 1458-1461 divides by zero, yields
NaN, and `np.random.choice` raises ValueError.  The input satisfies every
hypothesis of the original claim, so the always-returns reading is
refuted. -/
theorem de_randomize_LP_nan_counterexample :
    (∀ p ∈ ([1, 1/2] : List ℚ), 0 < p) ∧
    ([1, 1/2] : List ℚ).length ≤ 2 ∧
    de_randomize_LP .rand_1 greedyDROracle [1, 1/2] 2 [[1, 0], [1, 0]] =
      .error "ValueError: probabilities contain NaN" := by
  refine ⟨?_, by simp, ?_⟩
  · intro p h
    fin_cases h <;> norm_num
  · norm_num [de_randomize_LP, deRandLoop, deRandStep, deRandTarget, listArgmax,
      greedyDROracle, firstIdxOf, List.eraseIdx, Except.map]

/-- Witness for the C1 theorem: technique rand_2 with the first-feasible
choice oracle, two slots of prominences 1 and 1/2, two candidates, uniform
weight vectors; this run lands in the layout half of the disjunction. -/
theorem de_randomize_LP_spec_witness :
    (∀ p ∈ ([1, 1/2] : List ℚ), 0 < p) ∧
    ([1, 1/2] : List ℚ).length ≤ 2 ∧
    (de_randomize_LP .rand_2 greedyDROracle [1, 1/2] 2 [[1/2, 1/2], [1/2, 1/2]] =
        .error "ValueError: probabilities contain NaN" ∨
      ∃ layout, de_randomize_LP .rand_2 greedyDROracle [1, 1/2] 2
          [[1/2, 1/2], [1/2, 1/2]] = .ok layout ∧
        layout.length = ([1, 1/2] : List ℚ).length ∧
        (∀ o ∈ layout, o.isSome = true) ∧
        (layout.filterMap id).Nodup ∧
        (∀ c : ℕ, some c ∈ layout → c < 2)) := by
  have hp : ∀ p ∈ ([1, 1/2] : List ℚ), 0 < p := by
    intro p h
    fin_cases h <;> norm_num
  exact ⟨hp, by simp,
    de_randomize_LP_spec .rand_2 greedyDROracle [1, 1/2] 2
      [[1/2, 1/2], [1/2, 1/2]] hp (by simp)
      (fun k tmp h => firstPosIdx_spec h)
      (fun k tp feas h => by
        show 0 < feas.length
        exact List.length_pos.mpr h)⟩

/-! ## Lemmas on the full-ILP ads extraction -/

